import Mathlib

/-!
Shallow embedding of the socket-chat-go server core (`src/main.go`).

Strings are modelled through their character lists so that every operation
is executable and kernel-reducible.  The Go `strings` functions used by the
source are embedded for the ASCII inputs the protocol deals with:

* `strings.ReplaceAll(s, "\r", "")`  → `stripCR`
* `strings.TrimSpace`                → `trimSpace`
* `strings.SplitN(s, " ", n)`        → `splitN2` / `splitN3` (via `breakAtSpace`)
* `strings.ToUpper`                  → `toUpperStr`
* `strings.HasPrefix`                → `hasPrefixStr`
* `strings.Contains(s, " ")`         → `containsSpace`

Network connections, goroutine scheduling and the audit log are elided;
each client's outbound channel (`out`, a buffered Go channel of capacity 32)
is modelled as the list of its undelivered lines, oldest first.
-/

/-- Go `unicode.IsSpace` restricted to the ASCII range (the only whitespace
the protocol can carry): space, tab, newline, vertical tab, form feed,
carriage return. -/
def isSpaceChar (ch : Char) : Bool :=
  ch = ' ' || ch = '\t' || ch = '\n' || ch = Char.ofNat 11 || ch = Char.ofNat 12 || ch = '\r'

/-- `strings.ReplaceAll(s, "\r", "")`: removes every carriage return. -/
def stripCR (s : String) : String :=
  String.mk (s.data.filter (fun ch => ch ≠ '\r'))

/-- `strings.TrimSpace`: drops leading and trailing whitespace. -/
def trimSpace (s : String) : String :=
  String.mk (((s.data.dropWhile isSpaceChar).reverse.dropWhile isSpaceChar).reverse)

/-- Splits a character list at the first space character: returns the part
before the first `' '` and, when a space exists, everything after it. -/
def breakAtSpace : List Char → List Char × Option (List Char)
  | [] => ([], none)
  | ch :: rest =>
    if ch = ' ' then ([], some rest)
    else
      let p := breakAtSpace rest
      (ch :: p.1, p.2)

/-- `strings.SplitN(s, " ", 2)`. -/
def splitN2 (s : String) : List String :=
  match breakAtSpace s.data with
  | (a, none) => [String.mk a]
  | (a, some b) => [String.mk a, String.mk b]

/-- `strings.SplitN(s, " ", 3)`. -/
def splitN3 (s : String) : List String :=
  match breakAtSpace s.data with
  | (a, none) => [String.mk a]
  | (a, some b) =>
    match breakAtSpace b with
    | (c, none) => [String.mk a, String.mk c]
    | (c, some d) => [String.mk a, String.mk c, String.mk d]

/-- `strings.ToUpper` on ASCII input. -/
def toUpperStr (s : String) : String :=
  String.mk (s.data.map Char.toUpper)

/-- `strings.HasPrefix`. -/
def hasPrefixStr (s p : String) : Bool :=
  decide (s.data.take p.data.length = p.data)

/-- `strings.Contains(s, " ")`. -/
def containsSpace (s : String) : Bool :=
  s.data.contains ' '

/-- `s[n:]` byte slicing for an ASCII prefix of length `n`. -/
def dropChars (s : String) (n : Nat) : String :=
  String.mk (s.data.drop n)

/-- `cleanLine` (main.go:239-252): strip carriage returns, trim the whole
line, and when the line contains a space, rebuild it as
`trimmed-first-field ++ " " ++ trimmed-remainder`. -/
def cleanLine (s : String) : String :=
  if trimSpace (stripCR s) = "" then ""
  else
    match splitN2 (trimSpace (stripCR s)) with
    | [c] => trimSpace c
    | [c, r] => trimSpace c ++ " " ++ trimSpace r
    | _ => ""

/-- `Client` (main.go:16-20).  `conn` (the raw socket) is elided; `out` is
the buffered outbound channel, modelled as the list of undelivered lines,
oldest first. -/
structure Client where
  username : String
  out : List String
deriving DecidableEq

/-- Capacity of each client's `out` channel: `make(chan string, 32)`
(main.go:124). -/
def mailboxCap : Nat := 32

/-- `Hub.users` (main.go:23-26): the username → client map, modelled as a
list of clients keyed by `username` (the mutex is elided — every operation
below is one critical section). -/
abbrev Hub := List Client

/-- Map lookup `h.users[name]`: first client with the given username. -/
def lookupUser (hub : Hub) (name : String) : Option Client :=
  hub.find? (fun c => c.username = name)

/-- `Hub.addUser` (main.go:33-41): registers the client unless the username
is taken.  Returns the (possibly updated) map and whether registration
succeeded (`false` = the "username taken" error). -/
def addUser (hub : Hub) (c : Client) : Hub × Bool :=
  if (lookupUser hub c.username).isSome then (hub, false)
  else (hub ++ [c], true)

/-- `Hub.removeUser` (main.go:44-48): deletes the username from the map. -/
def removeUser (hub : Hub) (name : String) : Hub :=
  hub.filter (fun c => c.username ≠ name)

/-- The non-blocking send `select { case c.out <- line: default: }`
(main.go:58-62): appends when the channel has room, drops otherwise. -/
def tryEnqueue (m : List String) (line : String) : List String :=
  if m.length < mailboxCap then m ++ [line] else m

/-- `Hub.broadcast` (main.go:51-64): offer `line` to every client, skipping
the sender when `sender` is non-empty; each offer is the non-blocking
drop-on-full send. -/
def broadcast (hub : Hub) (sender line : String) : Hub :=
  match hub with
  | [] => []
  | c :: rest =>
    (if sender ≠ "" ∧ c.username = sender then c
     else { c with out := tryEnqueue c.out line }) :: broadcast rest sender line

/-- Outcome of processing the first inbound line (main.go:110-119). -/
inductive LoginResult where
  | errExpected             -- "ERR expected 'LOGIN <username>'", terminate
  | errInvalid              -- "ERR invalid-username", terminate
  | ok (username : String)  -- proceed to registration
deriving DecidableEq

/-- The LOGIN flow of `handleConn` (main.go:110-119): clean the first line,
require the (upper-cased) `"LOGIN "` prefix, then trim the remainder and
reject it when empty or containing a space character. -/
def loginProcess (raw : String) : LoginResult :=
  if hasPrefixStr (toUpperStr (cleanLine raw)) "LOGIN " = false then .errExpected
  else if trimSpace (dropChars (cleanLine raw) 6) = ""
      || containsSpace (trimSpace (dropChars (cleanLine raw) 6)) then .errInvalid
  else .ok (trimSpace (dropChars (cleanLine raw) 6))

/-- The blocking send `target.out <- line` (main.go:207) applied to the first
client named `target`: the send completes (appending the line) only when the
channel has room; `none` models the sender's goroutine staying blocked. -/
def dmEnqueue (hub : Hub) (target line : String) : Option Hub :=
  match hub with
  | [] => none
  | c :: rest =>
    if c.username = target then
      if c.out.length < mailboxCap then some ({ c with out := c.out ++ [line] } :: rest)
      else none
    else
      match dmEnqueue rest target line with
      | none => none
      | some rest2 => some (c :: rest2)

/-- The body of the `DM` case after parsing (main.go:193-208), given the
already-split target name and message text: validate, look the target up,
then do the blocking send and echo `DM to <target>: <text>` to the sender's
own connection.  Result: `none` when the sender blocks on a full target
mailbox, otherwise the new hub and the lines written directly to the
sender's connection. -/
def dmCommand (hub : Hub) (sender targetName messageText : String) :
    Option (Hub × List String) :=
  if targetName = "" || messageText = "" then
    some (hub, ["ERR usage: DM <username> <text>"])
  else
    match lookupUser hub targetName with
    | none => some (hub, ["ERR user-not-found"])
    | some _ =>
      match dmEnqueue hub targetName ("DM " ++ sender ++ " " ++ messageText) with
      | none => none
      | some hub2 => some (hub2, ["DM to " ++ targetName ++ ": " ++ messageText])

/-- One iteration of the authenticated command loop (main.go:157-213) for a
raw inbound line from `sender`: returns the updated hub together with the
lines written directly to the sender's own connection (`none` when the
iteration blocks inside the DM send).  The idle-timer reset and the audit
log are elided here; the timer is modelled separately below. -/
def dispatch (hub : Hub) (sender raw : String) : Option (Hub × List String) :=
  if cleanLine raw = "" then some (hub, [])
  else if hasPrefixStr (toUpperStr (cleanLine raw)) "MSG " then
    (if trimSpace (dropChars (cleanLine raw) 4) = "" then some (hub, [])
     else some (broadcast hub sender
        ("MSG " ++ sender ++ " " ++ trimSpace (dropChars (cleanLine raw) 4)), []))
  else if toUpperStr (cleanLine raw) = "WHO" then
    some (hub, hub.map (fun c => "USER " ++ c.username))
  else if toUpperStr (cleanLine raw) = "PING" then
    some (hub, ["PONG"])
  else if hasPrefixStr (toUpperStr (cleanLine raw)) "DM " then
    (match splitN3 (cleanLine raw) with
     | [_, p1, p2] => dmCommand hub sender (trimSpace p1) (trimSpace p2)
     | _ => some (hub, ["ERR usage: DM <username> <text>"]))
  else
    some (hub, ["ERR unknown-cmd"])

/-- The deferred cleanup of an authenticated session (main.go:130-133):
remove the user, then broadcast the disconnect notice excluding no one. -/
def disconnect (hub : Hub) (name : String) : Hub :=
  broadcast (removeUser hub name) "" ("INFO " ++ name ++ " disconnected")

/-!  Idle monitor (main.go:140-154).

`time.Timer` state, under the interleaving in which the `resetTimer`
body (Stop / drain / Reset, main.go:141-149) runs as one step: `deadline`
is the absolute expiry instant of the last arming, `armed` is true while
the runtime timer is pending, `chanFull` records an expiry signal sitting
undelivered in `idleTimer.C`, and `closed` records that the monitor
goroutine (main.go:150-154) consumed a signal and closed the connection. -/
structure TimerState where
  deadline : Nat
  armed : Bool
  chanFull : Bool
  closed : Bool
deriving DecidableEq

/-- `resetTimer d` (main.go:141-149) called at absolute time `now`:
`idleTimer.Stop()` reports whether the timer was still pending; when it was
not, the pending signal (if any) is drained from the channel; then
`idleTimer.Reset(d)` re-arms the timer. -/
def resetTimer (t : TimerState) (now d : Nat) : TimerState :=
  let stopped := t.armed
  let t1 := if stopped then { t with armed := false }
            else { t with armed := false, chanFull := false }
  { t1 with armed := true, deadline := now + d }

/-- Environment events the timer state reacts to. -/
inductive TEvent where
  | fire (now : Nat)     -- the runtime delivers the expiry into idleTimer.C
  | consume (now : Nat)  -- the monitor goroutine receives and closes the conn
  | reset (now : Nat)    -- the dispatcher calls resetTimer on a valid line
deriving DecidableEq

/-- The absolute time at which an event happens. -/
def TEvent.time : TEvent → Nat
  | .fire now => now
  | .consume now => now
  | .reset now => now

/-- Timer semantics for one event, with the fixed timeout `d` used by every
reset (the code always passes `60 * time.Second`): the runtime fires only a
pending timer whose deadline has passed; the monitor goroutine's receive
proceeds only when a signal is in the channel. -/
def timerStep (d : Nat) (t : TimerState) (e : TEvent) : TimerState :=
  match e with
  | .fire now =>
    if t.armed ∧ t.deadline ≤ now then { t with armed := false, chanFull := true }
    else t
  | .consume _ =>
    if t.chanFull then { t with chanFull := false, closed := true }
    else t
  | .reset now => resetTimer t now d

/-- Running a sequence of events. -/
def timerRun (d : Nat) (t : TimerState) (es : List TEvent) : TimerState :=
  es.foldl (timerStep d) t

/-- Registry states reachable through the server's lifecycle: starting from
the empty hub (`NewHub`, main.go:29), a connection whose first line passes
the LOGIN flow is registered with a fresh empty mailbox (main.go:121-126,
whether or not `addUser` succeeds), any authenticated command iteration may
run (main.go:157-213), and any session may disconnect (main.go:130-133). -/
inductive Reach : Hub → Prop where
  | init : Reach []
  | login (hub : Hub) (raw u : String) : Reach hub → loginProcess raw = .ok u →
      Reach (addUser hub ⟨u, []⟩).1
  | command (hub : Hub) (s raw : String) (hub2 : Hub) (outs : List String) :
      Reach hub → dispatch hub s raw = some (hub2, outs) → Reach hub2
  | leave (hub : Hub) (name : String) : Reach hub → Reach (disconnect hub name)

/-! ### Helper lemmas -/

lemma tryEnqueue_of_room (m : List String) (l : String) (h : m.length < mailboxCap) :
    tryEnqueue m l = m ++ [l] := by
  simp [tryEnqueue, h]

lemma tryEnqueue_of_full (m : List String) (l : String) (h : ¬ m.length < mailboxCap) :
    tryEnqueue m l = m := by
  simp [tryEnqueue, h]

lemma broadcast_eq_map (hub : Hub) (sender line : String) :
    broadcast hub sender line =
      hub.map (fun c =>
        if sender ≠ "" ∧ c.username = sender then c
        else { c with out := tryEnqueue c.out line }) := by
  induction hub with
  | nil => rfl
  | cons c rest ih => simp only [broadcast, List.map_cons, ih]

lemma lookupUser_append (hub1 hub2 : Hub) (name : String) :
    lookupUser (hub1 ++ hub2) name =
      ((lookupUser hub1 name).or (lookupUser hub2 name)) := by
  simp [lookupUser, List.find?_append]

lemma broadcast_username_map (hub : Hub) (sender line : String) :
    (broadcast hub sender line).map Client.username = hub.map Client.username := by
  induction hub with
  | nil => rfl
  | cons c rest ih =>
    simp only [broadcast, List.map_cons, ih]
    split <;> rfl

lemma lookupUser_broadcast (hub : Hub) (sender line name : String) :
    lookupUser (broadcast hub sender line) name =
      (lookupUser hub name).map (fun c =>
        if sender ≠ "" ∧ c.username = sender then c
        else { c with out := tryEnqueue c.out line }) := by
  rw [broadcast_eq_map, lookupUser, lookupUser, List.find?_map]
  have : ((fun c : Client => decide (c.username = name)) ∘ fun c =>
      if sender ≠ "" ∧ c.username = sender then c
      else { c with out := tryEnqueue c.out line }) =
      (fun c : Client => decide (c.username = name)) := by
    funext c
    simp only [Function.comp]
    split <;> rfl
  rw [this]

lemma lookupUser_removeUser (hub : Hub) (name : String) :
    lookupUser (removeUser hub name) name = none := by
  rw [lookupUser, List.find?_eq_none]
  intro c hc
  have hmem := List.of_mem_filter hc
  simp only [decide_not, Bool.not_eq_eq_eq_not, Bool.not_true, decide_eq_false_iff_not] at hmem
  simp only [decide_eq_true_eq]
  exact hmem

lemma dmEnqueue_of_room (hub : Hub) (t l : String) (c : Client)
    (hc : lookupUser hub t = some c) (hroom : c.out.length < mailboxCap) :
    ∃ hub2, dmEnqueue hub t l = some hub2 ∧
      lookupUser hub2 t = some { c with out := c.out ++ [l] } ∧
      ∀ n, n ≠ t → lookupUser hub2 n = lookupUser hub n := by
  induction hub with
  | nil => simp [lookupUser] at hc
  | cons c0 rest ih =>
    by_cases h0 : c0.username = t
    · have hc0 : c0 = c := by
        rw [lookupUser, List.find?_cons_of_pos _ (by simp [h0])] at hc
        exact Option.some.inj hc
      subst hc0
      refine ⟨{ c0 with out := c0.out ++ [l] } :: rest, ?_, ?_, ?_⟩
      · simp [dmEnqueue, h0, hroom]
      · rw [lookupUser, List.find?_cons_of_pos _ (by simp [h0])]
      · intro n hn
        rw [lookupUser, lookupUser,
          List.find?_cons_of_neg _ (by simp only [decide_eq_true_eq]; rw [h0]; exact fun he => hn he.symm),
          List.find?_cons_of_neg _ (by simp only [decide_eq_true_eq]; rw [h0]; exact fun he => hn he.symm)]
    · have hc' : lookupUser rest t = some c := by
        rw [lookupUser, List.find?_cons_of_neg _ (by simp [h0])] at hc
        exact hc
      obtain ⟨hub2, h1, h2, h3⟩ := ih hc'
      refine ⟨c0 :: hub2, ?_, ?_, ?_⟩
      · simp [dmEnqueue, h0, h1]
      · rw [lookupUser, List.find?_cons_of_neg _ (by simp [h0])]
        exact h2
      · intro n hn
        by_cases hcn : c0.username = n
        · rw [lookupUser, lookupUser,
            List.find?_cons_of_pos _ (by simp [hcn]), List.find?_cons_of_pos _ (by simp [hcn])]
        · rw [lookupUser, lookupUser,
            List.find?_cons_of_neg _ (by simp [hcn]), List.find?_cons_of_neg _ (by simp [hcn])]
          exact h3 n hn

lemma dmEnqueue_of_full (hub : Hub) (t l : String) (c : Client)
    (hc : lookupUser hub t = some c) (hfull : ¬ c.out.length < mailboxCap) :
    dmEnqueue hub t l = none := by
  induction hub with
  | nil => simp [lookupUser] at hc
  | cons c0 rest ih =>
    by_cases h0 : c0.username = t
    · have hc0 : c0 = c := by
        rw [lookupUser, List.find?_cons_of_pos _ (by simp [h0])] at hc
        exact Option.some.inj hc
      subst hc0
      simp [dmEnqueue, h0, hfull]
    · have hc' : lookupUser rest t = some c := by
        rw [lookupUser, List.find?_cons_of_neg _ (by simp [h0])] at hc
        exact hc
      simp [dmEnqueue, h0, ih hc']

example : cleanLine "  MSG   hi  there \r" = "MSG hi  there" := by decide
example : cleanLine "MSG\thi" = "MSG\thi" := by decide
example : splitN3 "DM bob hi there" = ["DM", "bob", "hi there"] := by decide
example : toUpperStr "pInG" = "PING" := by decide
example : hasPrefixStr "LOGIN bob" "LOGIN " = true := by decide
example : loginProcess "login bob\r" = .ok "bob" := by decide
example : loginProcess "LOGIN a\tb" = .ok "a\tb" := by decide
example : loginProcess "LOGIN  " = .errExpected := by decide
example : loginProcess "LOGIN a b" = .errInvalid := by decide
example : dispatch [⟨"alice", []⟩, ⟨"bob", []⟩] "alice" "DM bob  hi you " =
    some ([⟨"alice", []⟩, ⟨"bob", ["DM alice hi you"]⟩], ["DM to bob: hi you"]) := by decide
example : dispatch [⟨"alice", []⟩] "alice" "MSG\thi" = some ([⟨"alice", []⟩], ["ERR unknown-cmd"]) := by decide
example : dispatch [⟨"alice", []⟩, ⟨"bob", List.replicate 32 "x"⟩] "alice" "DM bob hi" = none := by decide

/-! ### Claim theorems -/

/-- Claim C3: every session's mailbox has capacity exactly 32 (the literal
in `make(chan string, 32)`), and the non-blocking send into a mailbox that
already holds 32 undelivered items drops the offered line, leaves the
mailbox unchanged, raises no error and returns to the producer, while a
mailbox with room appends the line at the tail. -/
theorem mailbox_capacity_and_drop :
    mailboxCap = 32 ∧
    (∀ (m : List String) (l : String), m.length = 32 → tryEnqueue m l = m) ∧
    (∀ (m : List String) (l : String), m.length < 32 → tryEnqueue m l = m ++ [l]) := by
  refine ⟨rfl, fun m l h => ?_, fun m l h => ?_⟩
  · simp [tryEnqueue, mailboxCap, h]
  · simp [tryEnqueue, mailboxCap, h]

/-- Witness for C3 at a concrete full and a concrete non-full mailbox. -/
theorem mailbox_capacity_and_drop_witness :
    tryEnqueue (List.replicate 32 "x") "y" = List.replicate 32 "x" ∧
    tryEnqueue ["a"] "y" = ["a", "y"] :=
  ⟨mailbox_capacity_and_drop.2.1 (List.replicate 32 "x") "y" (by decide),
   mailbox_capacity_and_drop.2.2 ["a"] "y" (by decide)⟩

/-- Claim C4: from any registry where neither of two distinct handles is
present, registering sessions for both succeeds; registering a session
under an already-present handle fails (the `username taken` error), leaves
the registry map unchanged, and does not alter the existing registration
under that handle. -/
theorem addUser_unique_handles :
    (∀ (hub : Hub) (c1 c2 : Client), c1.username ≠ c2.username →
        lookupUser hub c1.username = none → lookupUser hub c2.username = none →
        (addUser hub c1).2 = true ∧ (addUser (addUser hub c1).1 c2).2 = true) ∧
    (∀ (hub : Hub) (c c0 : Client), lookupUser hub c.username = some c0 →
        (addUser hub c).1 = hub ∧ (addUser hub c).2 = false ∧
        lookupUser (addUser hub c).1 c.username = some c0) := by
  constructor
  · intro hub c1 c2 hne h1 h2
    have ha1 : addUser hub c1 = (hub ++ [c1], true) := by
      simp [addUser, h1]
    refine ⟨by simp [ha1], ?_⟩
    have hsingle : lookupUser [c1] c2.username = none := by
      unfold lookupUser
      rw [List.find?_cons_of_neg _ (by simp only [decide_eq_true_eq]; exact hne)]
      rfl
    have h2' : lookupUser (hub ++ [c1]) c2.username = none := by
      rw [lookupUser_append, h2, hsingle]
      rfl
    rw [ha1]
    simp [addUser, h2']
  · intro hub c c0 h
    have : (lookupUser hub c.username).isSome = true := by simp [h]
    refine ⟨by simp [addUser, this], by simp [addUser, this], ?_⟩
    simp [addUser, this, h]

/-- Witness for C4: `"alice"` then `"bob"` both register from the empty
registry, and re-registering `"alice"` fails leaving the map unchanged. -/
theorem addUser_unique_handles_witness :
    ((addUser [] ⟨"alice", []⟩).2 = true ∧
      (addUser (addUser [] ⟨"alice", []⟩).1 ⟨"bob", []⟩).2 = true) ∧
    ((addUser [⟨"alice", []⟩] ⟨"alice", ["z"]⟩).1 = [⟨"alice", []⟩] ∧
      (addUser [⟨"alice", []⟩] ⟨"alice", ["z"]⟩).2 = false ∧
      lookupUser (addUser [⟨"alice", []⟩] ⟨"alice", ["z"]⟩).1 "alice" = some ⟨"alice", []⟩) :=
  ⟨addUser_unique_handles.1 [] ⟨"alice", []⟩ ⟨"bob", []⟩ (by decide) (by decide) (by decide),
   addUser_unique_handles.2 [⟨"alice", []⟩] ⟨"alice", ["z"]⟩ ⟨"alice", []⟩ (by decide)⟩

/-- Claim C2: broadcasting with registry `[A, B, C]` excluding `A` offers
the line to `B`'s and `C`'s mailboxes (appending when there is room,
`tryEnqueue`) and leaves `A`'s client untouched; an empty exclude handle
excludes no one; and across two successive broadcast calls each eligible
recipient with room receives the lines in call order (FIFO). -/
theorem broadcast_exclusion_and_fifo :
    (∀ (A B C : Client) (l : String), A.username ≠ "" →
        B.username ≠ A.username → C.username ≠ A.username →
        broadcast [A, B, C] A.username l =
          [A, { B with out := tryEnqueue B.out l }, { C with out := tryEnqueue C.out l }]) ∧
    (∀ (hub : Hub) (l : String),
        broadcast hub "" l = hub.map (fun c => { c with out := tryEnqueue c.out l })) ∧
    (∀ (hub : Hub) (A l1 l2 : String),
        List.Forall₂ (fun c c2 => (c.username ≠ A ∨ A = "") →
            c.out.length + 2 ≤ mailboxCap →
            c2.out = c.out ++ [l1, l2])
          hub (broadcast (broadcast hub A l1) A l2)) := by
  refine ⟨?_, ?_, ?_⟩
  · intro A B C l hA hB hC
    simp [broadcast, hA, hB, hC]
  · intro hub l
    rw [broadcast_eq_map]
    simp
  · intro hub A l1 l2
    induction hub with
    | nil => exact List.Forall₂.nil
    | cons c rest ih =>
      simp only [broadcast]
      refine List.Forall₂.cons ?_ ih
      intro hskip hroom
      have hc : ¬ (A ≠ "" ∧ c.username = A) := by
        rcases hskip with h | h
        · intro hand
          exact h hand.2
        · intro hand
          exact hand.1 h
      rw [if_neg hc]
      dsimp only
      rw [if_neg hc, tryEnqueue_of_room c.out l1 (by omega)]
      rw [tryEnqueue_of_room _ l2 (by simp only [List.length_append, List.length_cons, List.length_nil]; omega)]
      simp

/-- Witness for C2 at a concrete three-member registry and two broadcasts. -/
theorem broadcast_exclusion_and_fifo_witness :
    broadcast [⟨"A", []⟩, ⟨"B", []⟩, ⟨"C", []⟩] "A" "L" =
      [⟨"A", []⟩, ⟨"B", tryEnqueue [] "L"⟩, ⟨"C", tryEnqueue [] "L"⟩] ∧
    broadcast [⟨"A", []⟩] "" "L" = [⟨"A", tryEnqueue [] "L"⟩] ∧
    (broadcast (broadcast [⟨"A", []⟩, ⟨"B", ["m"]⟩] "A" "l1") "A" "l2").map Client.out =
      [[], ["m", "l1", "l2"]] := by
  refine ⟨broadcast_exclusion_and_fifo.1 ⟨"A", []⟩ ⟨"B", []⟩ ⟨"C", []⟩ "L"
      (by decide) (by decide) (by decide),
    broadcast_exclusion_and_fifo.2.1 [⟨"A", []⟩] "L", ?_⟩
  have h := broadcast_exclusion_and_fifo.2.2 [⟨"A", []⟩, ⟨"B", ["m"]⟩] "A" "l1" "l2"
  have hB := (List.forall₂_cons.mp (List.forall₂_cons.mp h).2).1
      (Or.inl (by decide)) (by decide)
  rw [show (broadcast (broadcast [⟨"A", []⟩, ⟨"B", ["m"]⟩] "A" "l1") "A" "l2") =
      [⟨"A", []⟩, ⟨"B", ["m"] ++ ["l1", "l2"]⟩] from by decide]
  decide


/-- Claim C1 (amended): for a well-formed DM whose target is registered,
the line `DM <sender> <text>` is enqueued onto the target's mailbox only —
lookups of every other handle are unchanged — but, contrary to the claim,
the enqueue is the blocking channel send `target.out <- ...`: when the
target's mailbox already holds 32 undelivered lines the line is not
dropped and the sender's processing thread blocks (the iteration does not
complete, modelled as `none`). -/
theorem dm_routes_to_target_only :
    (∀ (hub : Hub) (s t x : String) (c : Client), t ≠ "" → x ≠ "" →
        lookupUser hub t = some c → c.out.length < mailboxCap →
        ∃ hub2, dmCommand hub s t x = some (hub2, ["DM to " ++ t ++ ": " ++ x]) ∧
          lookupUser hub2 t = some { c with out := c.out ++ ["DM " ++ s ++ " " ++ x] } ∧
          ∀ n, n ≠ t → lookupUser hub2 n = lookupUser hub n) ∧
    (∀ (hub : Hub) (s t x : String) (c : Client), t ≠ "" → x ≠ "" →
        lookupUser hub t = some c → ¬ c.out.length < mailboxCap →
        dmCommand hub s t x = none) := by
  constructor
  · intro hub s t x c ht hx hc hroom
    obtain ⟨hub2, h1, h2, h3⟩ := dmEnqueue_of_room hub t ("DM " ++ s ++ " " ++ x) c hc hroom
    refine ⟨hub2, ?_, h2, h3⟩
    simp [dmCommand, ht, hx, hc, h1]
  · intro hub s t x c ht hx hc hfull
    have h1 := dmEnqueue_of_full hub t ("DM " ++ s ++ " " ++ x) c hc hfull
    simp [dmCommand, ht, hx, hc, h1]

/-- Witness for C1 (amended) at a two-member registry, in both the
with-room and the full-mailbox situation. -/
theorem dm_routes_to_target_only_witness :
    (∃ hub2, dmCommand [⟨"alice", []⟩, ⟨"bob", ["old"]⟩] "alice" "bob" "hi" =
        some (hub2, ["DM to " ++ "bob" ++ ": " ++ "hi"]) ∧
      lookupUser hub2 "bob" = some ⟨"bob", ["old"] ++ ["DM " ++ "alice" ++ " " ++ "hi"]⟩ ∧
      ∀ n, n ≠ "bob" → lookupUser hub2 n = lookupUser [⟨"alice", []⟩, ⟨"bob", ["old"]⟩] n) ∧
    dmCommand [⟨"alice", []⟩, ⟨"bob", List.replicate 32 "x"⟩] "alice" "bob" "hi" = none :=
  ⟨dm_routes_to_target_only.1 [⟨"alice", []⟩, ⟨"bob", ["old"]⟩] "alice" "bob" "hi"
      ⟨"bob", ["old"]⟩ (by decide) (by decide) (by decide) (by decide),
   dm_routes_to_target_only.2 [⟨"alice", []⟩, ⟨"bob", List.replicate 32 "x"⟩] "alice" "bob" "hi"
      ⟨"bob", List.replicate 32 "x"⟩ (by decide) (by decide) (by decide) (by decide)⟩

/-- Counterexample to C1 as stated: with the target's mailbox holding 32
undelivered lines, the claim predicts the DM line is silently dropped and
the sender's iteration completes with the hub unchanged; the code instead
performs a blocking send, so the iteration never completes — `dmCommand`
(and the corresponding `dispatch` step) yield no result at all. -/
theorem dm_full_mailbox_blocks_cex :
    dmCommand [⟨"alice", []⟩, ⟨"bob", List.replicate 32 "x"⟩] "alice" "bob" "hi" = none ∧
    dispatch [⟨"alice", []⟩, ⟨"bob", List.replicate 32 "x"⟩] "alice" "DM bob hi" = none ∧
    ¬ ∃ r, dmCommand [⟨"alice", []⟩, ⟨"bob", List.replicate 32 "x"⟩] "alice" "bob" "hi" = some r := by
  refine ⟨by decide, by decide, ?_⟩
  intro ⟨r, hr⟩
  rw [show dmCommand [⟨"alice", []⟩, ⟨"bob", List.replicate 32 "x"⟩] "alice" "bob" "hi" = none
    from by decide] at hr
  exact Option.noConfusion hr

/-- Claim C10: for a well-formed DM whose target is registered (and whose
mailbox has room, since the send blocks otherwise), the server writes the
confirmation `DM to <target>: <text>` directly to the sender's own
connection — it is the only direct output of the iteration and is not
routed through the sender's mailbox, whose registry entry is unchanged. -/
theorem dm_sender_confirmation_echo :
    ∀ (hub : Hub) (s t x : String) (c : Client), t ≠ "" → x ≠ "" →
      lookupUser hub t = some c → c.out.length < mailboxCap →
      ∃ hub2, dmCommand hub s t x = some (hub2, ["DM to " ++ t ++ ": " ++ x]) ∧
        (s ≠ t → lookupUser hub2 s = lookupUser hub s) := by
  intro hub s t x c ht hx hc hroom
  obtain ⟨hub2, h1, _, h3⟩ := dmEnqueue_of_room hub t ("DM " ++ s ++ " " ++ x) c hc hroom
  refine ⟨hub2, ?_, fun hs => h3 s hs⟩
  simp [dmCommand, ht, hx, hc, h1]

/-- Witness for C10: alice DMs bob; the echo goes to alice's connection and
alice's registry entry is untouched. -/
theorem dm_sender_confirmation_echo_witness :
    ∃ hub2, dmCommand [⟨"alice", []⟩, ⟨"bob", []⟩] "alice" "bob" "hey" =
        some (hub2, ["DM to " ++ "bob" ++ ": " ++ "hey"]) ∧
      ("alice" ≠ "bob" → lookupUser hub2 "alice" = lookupUser [⟨"alice", []⟩, ⟨"bob", []⟩] "alice") :=
  dm_sender_confirmation_echo [⟨"alice", []⟩, ⟨"bob", []⟩] "alice" "bob" "hey"
    ⟨"bob", []⟩ (by decide) (by decide) (by decide) (by decide)

/-- Claim C9: tearing down an authenticated session removes its handle from
the registry first and then broadcasts `INFO <handle> disconnected` with no
excluded handle, so every remaining registered session is offered the
notice in its mailbox (drop-on-full) and the departed handle gets nothing;
afterwards looking the handle up fails and registering it again succeeds. -/
theorem disconnect_unregisters_then_notifies :
    ∀ (hub : Hub) (h : String),
      disconnect hub h =
        (removeUser hub h).map
          (fun c => { c with out := tryEnqueue c.out ("INFO " ++ h ++ " disconnected") }) ∧
      lookupUser (disconnect hub h) h = none ∧
      ∀ (c : Client), c.username = h → (addUser (disconnect hub h) c).2 = true := by
  intro hub h
  have hmap : disconnect hub h =
      (removeUser hub h).map
        (fun c => { c with out := tryEnqueue c.out ("INFO " ++ h ++ " disconnected") }) := by
    rw [disconnect, broadcast_eq_map]
    simp
  have hnone : lookupUser (disconnect hub h) h = none := by
    rw [disconnect, lookupUser_broadcast, lookupUser_removeUser]
    rfl
  refine ⟨hmap, hnone, fun c hcu => ?_⟩
  rw [addUser]
  rw [if_neg (by rw [hcu, hnone]; simp)]

/-- Witness for C9: alice leaves a registry `{alice, bob}`; bob is notified,
alice's handle is gone and can be registered afresh. -/
theorem disconnect_unregisters_then_notifies_witness :
    disconnect [⟨"alice", []⟩, ⟨"bob", []⟩] "alice" =
      (removeUser [⟨"alice", []⟩, ⟨"bob", []⟩] "alice").map
        (fun c => { c with out := tryEnqueue c.out ("INFO " ++ "alice" ++ " disconnected") }) ∧
    lookupUser (disconnect [⟨"alice", []⟩, ⟨"bob", []⟩] "alice") "alice" = none ∧
    (addUser (disconnect [⟨"alice", []⟩, ⟨"bob", []⟩] "alice") ⟨"alice", []⟩).2 = true := by
  obtain ⟨h1, h2, h3⟩ := disconnect_unregisters_then_notifies [⟨"alice", []⟩, ⟨"bob", []⟩] "alice"
  exact ⟨h1, h2, h3 ⟨"alice", []⟩ (by decide)⟩

/-- Claim C6: after the dispatcher's `resetTimer` runs at time `now` with
timeout `T`, no expiry is delivered before `now + T`: throughout any
sequence of runtime-fire attempts, monitor receives, and further resets
all happening in the window `[now, now + T)`, the expiry channel stays
empty, the monitor never closes the connection, the timer stays armed and
its deadline never falls below `now + T` — in particular a second reset
inside the window finds the timer still pending (`Stop` succeeds), so the
expiry armed at `now` never fires.  The hypothesis `armed → channel empty`
is the `time.Timer` runtime invariant (a pending timer has not yet
delivered its signal). -/
theorem idle_timer_no_stale_expiry :
    ∀ (t : TimerState) (T now : Nat) (es : List TEvent),
      (t.armed = true → t.chanFull = false) →
      (∀ e ∈ es, now ≤ e.time ∧ e.time < now + T) →
      (timerRun T (resetTimer t now T) es).chanFull = false ∧
      (timerRun T (resetTimer t now T) es).closed = t.closed ∧
      (timerRun T (resetTimer t now T) es).armed = true ∧
      now + T ≤ (timerRun T (resetTimer t now T) es).deadline := by
  intro t T now es hinv hes
  have hstart : (resetTimer t now T).chanFull = false ∧
      (resetTimer t now T).closed = t.closed ∧
      (resetTimer t now T).armed = true ∧
      now + T ≤ (resetTimer t now T).deadline := by
    by_cases ha : t.armed = true
    · simp [resetTimer, ha, hinv ha]
    · simp [resetTimer, ha]
  suffices H : ∀ (es2 : List TEvent) (s : TimerState),
      s.chanFull = false → s.closed = t.closed → s.armed = true → now + T ≤ s.deadline →
      (∀ e ∈ es2, now ≤ e.time ∧ e.time < now + T) →
      (timerRun T s es2).chanFull = false ∧ (timerRun T s es2).closed = t.closed ∧
      (timerRun T s es2).armed = true ∧ now + T ≤ (timerRun T s es2).deadline by
    exact H es (resetTimer t now T) hstart.1 hstart.2.1 hstart.2.2.1 hstart.2.2.2 hes
  intro es2
  induction es2 with
  | nil =>
    intro s h1 h2 h3 h4 _
    exact ⟨h1, h2, h3, h4⟩
  | cons e rest ih =>
    intro s h1 h2 h3 h4 hall
    have he := hall e (List.mem_cons_self e rest)
    have hrest : ∀ e2 ∈ rest, now ≤ e2.time ∧ e2.time < now + T :=
      fun e2 h2m => hall e2 (List.mem_cons_of_mem e h2m)
    rw [timerRun, List.foldl_cons]
    match e with
    | .fire t2 =>
      have hne : ¬ (s.armed = true ∧ s.deadline ≤ t2) := by
        intro hand
        have : t2 < now + T := he.2
        omega
      rw [show timerStep T s (.fire t2) = s from by simp [timerStep, hne]]
      exact ih s h1 h2 h3 h4 hrest
    | .consume t2 =>
      rw [show timerStep T s (.consume t2) = s from by simp [timerStep, h1]]
      exact ih s h1 h2 h3 h4 hrest
    | .reset t2 =>
      have hstep : timerStep T s (.reset t2) =
          { s with armed := true, deadline := t2 + T } := by
        simp [timerStep, resetTimer, h3]
      rw [hstep]
      refine ih _ h1 h2 rfl ?_ hrest
      have : now ≤ t2 := (hall (.reset t2) (List.mem_cons_self _ rest)).1
      simp only []
      omega

/-- Witness for C6: a reset at time 5 with timeout 60, followed inside the
window by a fire attempt, a second reset and a monitor receive attempt. -/
theorem idle_timer_no_stale_expiry_witness :
    (timerRun 60 (resetTimer ⟨0, true, false, false⟩ 5 60)
        [.fire 30, .reset 40, .fire 64, .consume 64]).chanFull = false ∧
    (timerRun 60 (resetTimer ⟨0, true, false, false⟩ 5 60)
        [.fire 30, .reset 40, .fire 64, .consume 64]).closed = false ∧
    (timerRun 60 (resetTimer ⟨0, true, false, false⟩ 5 60)
        [.fire 30, .reset 40, .fire 64, .consume 64]).armed = true ∧
    5 + 60 ≤ (timerRun 60 (resetTimer ⟨0, true, false, false⟩ 5 60)
        [.fire 30, .reset 40, .fire 64, .consume 64]).deadline :=
  idle_timer_no_stale_expiry ⟨0, true, false, false⟩ 60 5
    [.fire 30, .reset 40, .fire 64, .consume 64]
    (fun _ => rfl) (by decide)

lemma loginProcess_ok_valid (raw u : String) (h : loginProcess raw = .ok u) :
    u ≠ "" ∧ containsSpace u = false := by
  unfold loginProcess at h
  split at h
  · exact absurd h (by simp)
  · split at h
    · exact absurd h (by simp)
    · rename_i hcond
      have hu := LoginResult.ok.inj h
      rw [← hu]
      simp only [Bool.or_eq_true, decide_eq_true_eq, not_or, Bool.not_eq_true] at hcond
      exact ⟨hcond.1, hcond.2⟩

lemma dmEnqueue_username_map (hub : Hub) (t l : String) (hub2 : Hub)
    (h : dmEnqueue hub t l = some hub2) :
    hub2.map Client.username = hub.map Client.username := by
  induction hub generalizing hub2 with
  | nil => exact absurd h (by simp [dmEnqueue])
  | cons c rest ih =>
    rw [dmEnqueue] at h
    by_cases h0 : c.username = t
    · rw [if_pos h0] at h
      by_cases hroom : c.out.length < mailboxCap
      · rw [if_pos hroom] at h
        obtain rfl := Option.some.inj h
        simp
      · rw [if_neg hroom] at h
        exact absurd h (by simp)
    · rw [if_neg h0] at h
      cases he : dmEnqueue rest t l with
      | none =>
        rw [he] at h
        exact absurd h (by simp)
      | some rest2 =>
        rw [he] at h
        obtain rfl := Option.some.inj h
        simp [ih rest2 he]

lemma dmCommand_username_map (hub : Hub) (s t x : String) (hub2 : Hub) (outs : List String)
    (h : dmCommand hub s t x = some (hub2, outs)) :
    hub2.map Client.username = hub.map Client.username := by
  unfold dmCommand at h
  split at h
  · simp only [Option.some.injEq, Prod.mk.injEq] at h
    rw [← h.1]
  · split at h
    · simp only [Option.some.injEq, Prod.mk.injEq] at h
      rw [← h.1]
    · split at h
      · exact absurd h (by simp)
      · rename_i hubX he
        simp only [Option.some.injEq, Prod.mk.injEq] at h
        rw [← h.1]
        exact dmEnqueue_username_map hub t _ hubX he

lemma dispatch_username_map (hub : Hub) (s raw : String) (hub2 : Hub) (outs : List String)
    (h : dispatch hub s raw = some (hub2, outs)) :
    hub2.map Client.username = hub.map Client.username := by
  unfold dispatch at h
  split at h
  · simp only [Option.some.injEq, Prod.mk.injEq] at h
    rw [← h.1]
  · split at h
    · split at h
      · simp only [Option.some.injEq, Prod.mk.injEq] at h
        rw [← h.1]
      · simp only [Option.some.injEq, Prod.mk.injEq] at h
        rw [← h.1, broadcast_username_map]
    · split at h
      · simp only [Option.some.injEq, Prod.mk.injEq] at h
        rw [← h.1]
      · split at h
        · simp only [Option.some.injEq, Prod.mk.injEq] at h
          rw [← h.1]
        · split at h
          · split at h
            · exact dmCommand_username_map hub s _ _ hub2 outs h
            · simp only [Option.some.injEq, Prod.mk.injEq] at h
              rw [← h.1]
          · simp only [Option.some.injEq, Prod.mk.injEq] at h
            rw [← h.1]

/-- Claim C5 (amended): in every reachable registry state, every handle
present as a key is a non-empty string containing no space character
(U+0020) — the validation checks only `strings.Contains(username, " ")`,
so other whitespace, e.g. a tab, can appear in a handle — and no command
iteration ever alters an existing session's handle (the username column of
the registry is preserved). -/
theorem registry_handles_nonempty_spaceless :
    (∀ (hub : Hub), Reach hub → ∀ c ∈ hub, c.username ≠ "" ∧ containsSpace c.username = false) ∧
    (∀ (hub : Hub) (s raw : String) (hub2 : Hub) (outs : List String),
        dispatch hub s raw = some (hub2, outs) →
        hub2.map Client.username = hub.map Client.username) := by
  constructor
  · intro hub hreach
    induction hreach with
    | init =>
      intro c hc
      exact absurd hc (List.not_mem_nil c)
    | login hub raw u hr hok ih =>
      intro c hc
      rw [addUser] at hc
      by_cases htaken : (lookupUser hub (⟨u, []⟩ : Client).username).isSome = true
      · rw [if_pos htaken] at hc
        exact ih c hc
      · rw [if_neg htaken] at hc
        rcases List.mem_append.mp hc with hmem | hmem
        · exact ih c hmem
        · have hcu : c = ⟨u, []⟩ := List.mem_singleton.mp hmem
          subst hcu
          exact loginProcess_ok_valid raw u hok
    | command hub s raw hub2 outs hr hd ih =>
      intro c hc
      have hmap := dispatch_username_map hub s raw hub2 outs hd
      have hmem : c.username ∈ hub2.map Client.username := List.mem_map_of_mem _ hc
      rw [hmap] at hmem
      obtain ⟨c0, h0, he⟩ := List.mem_map.mp hmem
      rw [← he]
      exact ih c0 h0
    | leave hub name hr ih =>
      intro c hc
      rw [disconnect] at hc
      have hmem : c.username ∈
          (broadcast (removeUser hub name) "" ("INFO " ++ name ++ " disconnected")).map
            Client.username :=
        List.mem_map_of_mem _ hc
      rw [broadcast_username_map] at hmem
      obtain ⟨c0, h0, he⟩ := List.mem_map.mp hmem
      rw [← he]
      exact ih c0 (List.mem_of_mem_filter h0)
  · exact fun hub s raw hub2 outs h => dispatch_username_map hub s raw hub2 outs h

/-- Witness for C5 (amended): the state reached by `LOGIN alice` has a
non-empty, space-free key, and an `MSG` iteration preserves the handle
column. -/
theorem registry_handles_nonempty_spaceless_witness :
    ((⟨"alice", []⟩ : Client).username ≠ "" ∧
      containsSpace (⟨"alice", []⟩ : Client).username = false) ∧
    ([⟨"alice", []⟩, ⟨"bob", ["MSG alice hi"]⟩] : Hub).map Client.username =
      ([⟨"alice", []⟩, ⟨"bob", []⟩] : Hub).map Client.username := by
  constructor
  · refine registry_handles_nonempty_spaceless.1 [⟨"alice", []⟩] ?_ ⟨"alice", []⟩
      (List.mem_singleton.mpr rfl)
    have h := Reach.login [] "LOGIN alice" "alice" Reach.init (by decide)
    rw [show (addUser [] (⟨"alice", []⟩ : Client)).1 = [⟨"alice", []⟩] from rfl] at h
    exact h
  · exact registry_handles_nonempty_spaceless.2 [⟨"alice", []⟩, ⟨"bob", []⟩] "alice" "MSG hi"
      [⟨"alice", []⟩, ⟨"bob", ["MSG alice hi"]⟩] [] (by decide)

/-- Counterexample to C5 as stated: `LOGIN a<TAB>b` passes the handshake
validation (only the space character is rejected, main.go:116), so a
registry state whose key `"a\tb"` contains a tab — a whitespace
character — is reachable. -/
theorem registry_whitespace_handle_cex :
    Reach [⟨"a\tb", []⟩] ∧ '\t' ∈ ("a\tb" : String).data ∧ isSpaceChar '\t' = true := by
  refine ⟨?_, by decide, by decide⟩
  have h := Reach.login [] "LOGIN a\tb" "a\tb" Reach.init (by decide)
  rw [show (addUser [] (⟨"a\tb", []⟩ : Client)).1 = [⟨"a\tb", []⟩] from rfl] at h
  exact h

lemma hasPrefixStr_login (kw u : String) (hkw : toUpperStr kw = "LOGIN") :
    hasPrefixStr (toUpperStr (kw ++ " " ++ u)) "LOGIN " = true := by
  have hmap : kw.data.map Char.toUpper = ("LOGIN").data := congrArg String.data hkw
  simp only [hasPrefixStr, decide_eq_true_eq]
  show (((kw.data ++ (" ").data) ++ u.data).map Char.toUpper).take ("LOGIN ").data.length =
    ("LOGIN ").data
  rw [List.map_append, List.map_append, hmap,
    show (" ").data.map Char.toUpper = (" ").data from by decide,
    show ("LOGIN").data ++ (" ").data = ("LOGIN ").data from by decide]
  exact List.take_left _ _

lemma dropChars_login (kw u : String) (hlen : kw.data.length = 5) :
    dropChars (kw ++ " " ++ u) 6 = u := by
  show String.mk (((kw.data ++ (" ").data) ++ u.data).drop 6) = u
  rw [show (6 : Nat) = (kw.data ++ (" ").data).length from by
    rw [List.length_append, hlen]
    rfl]
  rw [List.drop_left]

/-- Claim C7 (amended): a first line that normalizes to `kw <u>` whose
keyword `kw` upper-cases to `LOGIN` (any letter case) and whose trimmed
handle `<u>` contains a space is answered `ERR invalid-username`; but a
LOGIN line with an *empty* handle normalizes to the bare keyword — a line
upper-casing to exactly `LOGIN` — which fails the `"LOGIN "` prefix test
and is answered `ERR expected 'LOGIN <username>'` instead; any first line
without the (case-insensitive) `LOGIN ` prefix likewise gets the
expected-LOGIN error; in each case the result is not `ok`, so the
Authenticated state is never reached, and whenever `ok <u>` is produced
the handle is non-empty and space-free. -/
theorem login_validation_responses :
    (∀ (raw kw u : String), cleanLine raw = kw ++ " " ++ u → toUpperStr kw = "LOGIN" →
        containsSpace (trimSpace u) = true → loginProcess raw = .errInvalid) ∧
    (∀ raw : String, toUpperStr (cleanLine raw) = "LOGIN" → loginProcess raw = .errExpected) ∧
    (∀ raw : String, hasPrefixStr (toUpperStr (cleanLine raw)) "LOGIN " = false →
        loginProcess raw = .errExpected) ∧
    (∀ (raw u : String), loginProcess raw = .ok u → u ≠ "" ∧ containsSpace u = false) := by
  refine ⟨?_, ?_, ?_, loginProcess_ok_valid⟩
  · intro raw kw u hclean hkw hspace
    have hmap : kw.data.map Char.toUpper = ("LOGIN").data := congrArg String.data hkw
    have hlen : kw.data.length = 5 := by
      have h5 := congrArg List.length hmap
      rw [List.length_map] at h5
      exact h5.trans (by decide)
    unfold loginProcess
    rw [hclean, hasPrefixStr_login kw u hkw, dropChars_login kw u hlen]
    rw [if_neg (by simp)]
    rw [if_pos (by simp [hspace])]
  · intro raw hclean
    unfold loginProcess
    rw [hclean]
    rw [if_pos (by decide)]
  · intro raw h
    unfold loginProcess
    rw [if_pos h]

/-- Witness for C7 (amended) on concrete first lines, the LOGIN keyword in
upper, lower and bare form. -/
theorem login_validation_responses_witness :
    loginProcess "LOGIN a b" = .errInvalid ∧
    loginProcess "login a b" = .errInvalid ∧
    loginProcess "login" = .errExpected ∧
    loginProcess "HELLO bob" = .errExpected ∧
    ("bob" ≠ "" ∧ containsSpace "bob" = false) :=
  ⟨login_validation_responses.1 "LOGIN a b" "LOGIN" "a b" (by decide) (by decide) (by decide),
   login_validation_responses.1 "login a b" "login" "a b" (by decide) (by decide) (by decide),
   login_validation_responses.2.1 "login" (by decide),
   login_validation_responses.2.2.1 "HELLO bob" (by decide),
   login_validation_responses.2.2.2 "LOGIN bob" "bob" (by decide)⟩

/-- Counterexample to C7 as stated: the first line `"LOGIN "` carries the
LOGIN keyword with an empty handle; it normalizes to the bare word
`LOGIN`, fails the `"LOGIN "` prefix test (main.go:111) and is answered
`ERR expected 'LOGIN <username>'` — not `ERR invalid-username` as the
claim requires for an empty handle. -/
theorem login_empty_handle_cex :
    cleanLine "LOGIN " = "LOGIN" ∧
    loginProcess "LOGIN " = LoginResult.errExpected ∧
    LoginResult.errExpected ≠ LoginResult.errInvalid := by decide

lemma dropWhile_cons_neg {α : Type} (p : α → Bool) (c : α) (r : List α) (h : p c = false) :
    (c :: r).dropWhile p = c :: r := by
  rw [List.dropWhile_cons, if_neg (by simp [h])]

lemma dropWhile_length_fix {α : Type} (p : α → Bool) (l : List α)
    (h : (l.dropWhile p).length = l.length) : l.dropWhile p = l := by
  cases l with
  | nil => rfl
  | cons c r =>
    rw [List.dropWhile_cons]
    split
    · rename_i hp
      exfalso
      rw [List.dropWhile_cons, if_pos hp] at h
      have hle := (List.dropWhile_suffix p (l := r)).sublist.length_le
      simp only [List.length_cons] at h
      omega
    · rfl

lemma head_neg_of_dropWhile_fix {α : Type} (p : α → Bool) (c : α) (r : List α)
    (h : (c :: r).dropWhile p = c :: r) : p c = false := by
  cases hpc : p c with
  | false => rfl
  | true =>
    exfalso
    rw [List.dropWhile_cons, if_pos hpc] at h
    have hle := (List.dropWhile_suffix p (l := r)).sublist.length_le
    have := congrArg List.length h
    simp only [List.length_cons] at this
    omega

lemma trimSpace_fix_of_parts (s : String)
    (h1 : s.data.dropWhile isSpaceChar = s.data)
    (h2 : s.data.reverse.dropWhile isSpaceChar = s.data.reverse) : trimSpace s = s := by
  show String.mk _ = s
  rw [h1, h2, List.reverse_reverse]

lemma trimSpace_fix_parts (s : String) (h : trimSpace s = s) :
    s.data.dropWhile isSpaceChar = s.data ∧
    s.data.reverse.dropWhile isSpaceChar = s.data.reverse := by
  have hd : ((s.data.dropWhile isSpaceChar).reverse.dropWhile isSpaceChar).reverse = s.data :=
    congrArg String.data h
  have hlen1 := (List.dropWhile_suffix isSpaceChar (l := s.data)).sublist.length_le
  have hlen2 := (List.dropWhile_suffix isSpaceChar
      (l := (s.data.dropWhile isSpaceChar).reverse)).sublist.length_le
  have hlend := congrArg List.length hd
  simp only [List.length_reverse] at hlen2 hlend
  have hfix1 : s.data.dropWhile isSpaceChar = s.data :=
    dropWhile_length_fix _ _ (by omega)
  refine ⟨hfix1, ?_⟩
  rw [hfix1] at hd
  have := congrArg List.reverse hd
  rw [List.reverse_reverse] at this
  rw [this]

lemma breakAtSpace_no_space (l : List Char) (h : ∀ ch ∈ l, ch ≠ ' ') :
    breakAtSpace l = (l, none) := by
  induction l with
  | nil => rfl
  | cons c r ih =>
    rw [breakAtSpace, if_neg (h c (List.mem_cons_self c r))]
    rw [ih (fun ch hm => h ch (List.mem_cons_of_mem c hm))]

lemma breakAtSpace_split (a b : List Char) (ha : ∀ ch ∈ a, ch ≠ ' ') :
    breakAtSpace (a ++ ' ' :: b) = (a, some b) := by
  induction a with
  | nil => simp [breakAtSpace]
  | cons c r ih =>
    rw [List.cons_append, breakAtSpace, if_neg (ha c (List.mem_cons_self c r))]
    rw [ih (fun ch hm => ha ch (List.mem_cons_of_mem c hm))]

lemma string_data_ne_nil (s : String) (h : s ≠ "") : s.data ≠ [] := by
  intro hd
  apply h
  show String.mk s.data = String.mk []
  rw [hd]

lemma dropWhile_all_neg {α : Type} (p : α → Bool) (l : List α)
    (h : ∀ a ∈ l, p a = false) : l.dropWhile p = l := by
  cases l with
  | nil => rfl
  | cons c r => exact dropWhile_cons_neg p c r (h c (List.mem_cons_self c r))

lemma cleanLine_space_split (s1 s2 : String) (h1 : s1 ≠ "")
    (hws : ∀ ch ∈ s1.data, isSpaceChar ch = false)
    (h2 : s2 ≠ "") (htrim : trimSpace s2 = s2) (hcr : '\r' ∉ s2.data) :
    cleanLine (s1 ++ " " ++ s2) = s1 ++ " " ++ s2 := by
  have hx : (s1 ++ " " ++ s2).data = s1.data ++ (' ' :: s2.data) := by
    show (s1.data ++ (" ").data) ++ s2.data = s1.data ++ (' ' :: s2.data)
    rw [List.append_assoc]
    rfl
  have hnosp : ∀ ch ∈ s1.data, ch ≠ ' ' := by
    intro ch hm he
    have hw := hws ch hm
    rw [he] at hw
    exact absurd hw (by decide)
  have hstrip : stripCR (s1 ++ " " ++ s2) = s1 ++ " " ++ s2 := by
    have hfilter : (s1 ++ " " ++ s2).data.filter (fun ch => ch ≠ '\r') =
        (s1 ++ " " ++ s2).data := by
      refine List.filter_eq_self.mpr ?_
      intro a ham
      rw [hx] at ham
      simp only [decide_eq_true_eq]
      rcases List.mem_append.mp ham with hm | hm
      · intro he
        have hw := hws a hm
        rw [he] at hw
        exact absurd hw (by decide)
      · rcases List.mem_cons.mp hm with he | hm2
        · rw [he]; decide
        · intro he
          rw [he] at hm2
          exact hcr hm2
    show String.mk _ = _
    rw [hfilter]
  obtain ⟨c, r, hcr1⟩ : ∃ c r, s1.data = c :: r := by
    cases hh : s1.data with
    | nil => exact absurd hh (string_data_ne_nil s1 h1)
    | cons c r => exact ⟨c, r, rfl⟩
  have hhead : isSpaceChar c = false := hws c (by rw [hcr1]; exact List.mem_cons_self c r)
  have hfix1 : (s1 ++ " " ++ s2).data.dropWhile isSpaceChar = (s1 ++ " " ++ s2).data := by
    rw [hx, hcr1, List.cons_append]
    exact dropWhile_cons_neg _ _ _ hhead
  have hs2parts := trimSpace_fix_parts s2 htrim
  obtain ⟨c2, r2, hrev⟩ : ∃ c2 r2, s2.data.reverse = c2 :: r2 := by
    cases hh : s2.data.reverse with
    | nil =>
      have hnil : s2.data = [] := by
        have := congrArg List.reverse hh
        rwa [List.reverse_reverse] at this
      exact absurd hnil (string_data_ne_nil s2 h2)
    | cons c2 r2 => exact ⟨c2, r2, rfl⟩
  have hc2 : isSpaceChar c2 = false := by
    refine head_neg_of_dropWhile_fix isSpaceChar c2 r2 ?_
    rw [← hrev]
    exact hs2parts.2
  have hrevX : (s1 ++ " " ++ s2).data.reverse = c2 :: (r2 ++ ' ' :: s1.data.reverse) := by
    rw [hx, List.reverse_append, List.reverse_cons, hrev]
    simp [List.cons_append, List.append_assoc]
  have hfix2 : (s1 ++ " " ++ s2).data.reverse.dropWhile isSpaceChar =
      (s1 ++ " " ++ s2).data.reverse := by
    rw [hrevX]
    exact dropWhile_cons_neg _ _ _ hc2
  have htrimX : trimSpace (s1 ++ " " ++ s2) = s1 ++ " " ++ s2 :=
    trimSpace_fix_of_parts _ hfix1 hfix2
  have hneX : (s1 ++ " " ++ s2) ≠ "" := by
    intro hh
    have hd := congrArg String.data hh
    rw [hx] at hd
    exact absurd hd (by simp)
  have hsplit : splitN2 (s1 ++ " " ++ s2) = [s1, s2] := by
    unfold splitN2
    rw [hx, breakAtSpace_split _ _ hnosp]
  have hts1 : trimSpace s1 = s1 :=
    trimSpace_fix_of_parts s1
      (dropWhile_all_neg _ _ (fun a ham => hws a ham))
      (dropWhile_all_neg _ _ (fun a ham => hws a (List.mem_reverse.mp ham)))
  unfold cleanLine
  rw [hstrip, htrimX, if_neg hneX, hsplit]
  show trimSpace s1 ++ " " ++ trimSpace s2 = s1 ++ " " ++ s2
  rw [hts1, htrim]

lemma cleanLine_tab_no_split (s1 s2 : String) (h1 : s1 ≠ "")
    (hws1 : ∀ ch ∈ s1.data, isSpaceChar ch = false)
    (h2 : s2 ≠ "") (hws2 : ∀ ch ∈ s2.data, isSpaceChar ch = false) :
    cleanLine (s1 ++ "\t" ++ s2) = s1 ++ "\t" ++ s2 := by
  have hx : (s1 ++ "\t" ++ s2).data = s1.data ++ ('\t' :: s2.data) := by
    show (s1.data ++ ("\t").data) ++ s2.data = s1.data ++ ('\t' :: s2.data)
    rw [List.append_assoc]
    rfl
  have hnosp : ∀ ch ∈ s1.data ++ ('\t' :: s2.data), ch ≠ ' ' := by
    intro ch hm he
    rcases List.mem_append.mp hm with hm1 | hm1
    · have hw := hws1 ch hm1
      rw [he] at hw
      exact absurd hw (by decide)
    · rcases List.mem_cons.mp hm1 with he2 | hm2
      · rw [he] at he2
        exact absurd he2 (by decide)
      · have hw := hws2 ch hm2
        rw [he] at hw
        exact absurd hw (by decide)
  have hstrip : stripCR (s1 ++ "\t" ++ s2) = s1 ++ "\t" ++ s2 := by
    have hfilter : (s1 ++ "\t" ++ s2).data.filter (fun ch => ch ≠ '\r') =
        (s1 ++ "\t" ++ s2).data := by
      refine List.filter_eq_self.mpr ?_
      intro a ham
      rw [hx] at ham
      simp only [decide_eq_true_eq]
      intro he
      rcases List.mem_append.mp ham with hm | hm
      · have hw := hws1 a hm
        rw [he] at hw
        exact absurd hw (by decide)
      · rcases List.mem_cons.mp hm with he2 | hm2
        · rw [he] at he2
          exact absurd he2 (by decide)
        · have hw := hws2 a hm2
          rw [he] at hw
          exact absurd hw (by decide)
    show String.mk _ = _
    rw [hfilter]
  obtain ⟨c, r, hcr1⟩ : ∃ c r, s1.data = c :: r := by
    cases hh : s1.data with
    | nil => exact absurd hh (string_data_ne_nil s1 h1)
    | cons c r => exact ⟨c, r, rfl⟩
  have hhead : isSpaceChar c = false := hws1 c (by rw [hcr1]; exact List.mem_cons_self c r)
  have hfix1 : (s1 ++ "\t" ++ s2).data.dropWhile isSpaceChar = (s1 ++ "\t" ++ s2).data := by
    rw [hx, hcr1, List.cons_append]
    exact dropWhile_cons_neg _ _ _ hhead
  obtain ⟨c2, r2, hrev⟩ : ∃ c2 r2, s2.data.reverse = c2 :: r2 := by
    cases hh : s2.data.reverse with
    | nil =>
      have hnil : s2.data = [] := by
        have := congrArg List.reverse hh
        rwa [List.reverse_reverse] at this
      exact absurd hnil (string_data_ne_nil s2 h2)
    | cons c2 r2 => exact ⟨c2, r2, rfl⟩
  have hc2 : isSpaceChar c2 = false :=
    hws2 c2 (List.mem_reverse.mp (by rw [hrev]; exact List.mem_cons_self c2 r2))
  have hrevX : (s1 ++ "\t" ++ s2).data.reverse = c2 :: (r2 ++ '\t' :: s1.data.reverse) := by
    rw [hx, List.reverse_append, List.reverse_cons, hrev]
    simp [List.cons_append, List.append_assoc]
  have hfix2 : (s1 ++ "\t" ++ s2).data.reverse.dropWhile isSpaceChar =
      (s1 ++ "\t" ++ s2).data.reverse := by
    rw [hrevX]
    exact dropWhile_cons_neg _ _ _ hc2
  have htrimX : trimSpace (s1 ++ "\t" ++ s2) = s1 ++ "\t" ++ s2 :=
    trimSpace_fix_of_parts _ hfix1 hfix2
  have hneX : (s1 ++ "\t" ++ s2) ≠ "" := by
    intro hh
    have hd := congrArg String.data hh
    rw [hx] at hd
    exact absurd hd (by simp)
  have hsplit : splitN2 (s1 ++ "\t" ++ s2) = [s1 ++ "\t" ++ s2] := by
    unfold splitN2
    rw [hx, breakAtSpace_no_space _ hnosp]
    show [String.mk (s1.data ++ ('\t' :: s2.data))] = [s1 ++ "\t" ++ s2]
    rw [show String.mk (s1.data ++ ('\t' :: s2.data)) = s1 ++ "\t" ++ s2 from
      (congrArg String.mk hx).symm]
  unfold cleanLine
  rw [hstrip, htrimX, if_neg hneX, hsplit]
  show trimSpace (s1 ++ "\t" ++ s2) = s1 ++ "\t" ++ s2
  exact htrimX

/-- Claim C8 (amended): inbound lines are normalized by stripping carriage
returns and trimming the edges, and command keywords are matched
case-insensitively (an upper-cased comparison), but the keyword is
separated from the remainder by the first *space character* (`" "`), not
by the first run of arbitrary whitespace: a line `kw ++ " " ++ rest` (with
a whitespace-free keyword and an edge-trimmed remainder) splits into `kw`
and `rest` with the remainder's internal whitespace preserved, while in
`kw ++ "\t" ++ rest` the tab does not separate — the whole line stays a
single keyword token. -/
theorem keyword_separation_rules :
    (∀ (hub : Hub) (s raw : String), toUpperStr (cleanLine raw) = "PING" →
        cleanLine raw ≠ "" → dispatch hub s raw = some (hub, ["PONG"])) ∧
    (∀ (s1 s2 : String), s1 ≠ "" → (∀ ch ∈ s1.data, isSpaceChar ch = false) →
        s2 ≠ "" → trimSpace s2 = s2 → '\r' ∉ s2.data →
        cleanLine (s1 ++ " " ++ s2) = s1 ++ " " ++ s2) ∧
    (∀ (s1 s2 : String), s1 ≠ "" → (∀ ch ∈ s1.data, isSpaceChar ch = false) →
        s2 ≠ "" → (∀ ch ∈ s2.data, isSpaceChar ch = false) →
        cleanLine (s1 ++ "\t" ++ s2) = s1 ++ "\t" ++ s2) := by
  refine ⟨?_, cleanLine_space_split, cleanLine_tab_no_split⟩
  intro hub s raw hupper hne
  unfold dispatch
  rw [if_neg hne, hupper]
  rw [if_neg (by decide), if_neg (by decide), if_pos rfl]

/-- Witness for C8 (amended): a mixed-case `PiNg` with a carriage return
and edge whitespace answers PONG; `"DM" ++ " " ++ "bob  hi"` splits at the
space keeping the remainder's inner double space; `"MSG" ++ "\t" ++ "hi"`
does not split. -/
theorem keyword_separation_rules_witness :
    dispatch [⟨"alice", []⟩] "alice" "  PiNg\r" = some ([⟨"alice", []⟩], ["PONG"]) ∧
    cleanLine ("DM" ++ " " ++ "bob  hi") = "DM" ++ " " ++ "bob  hi" ∧
    cleanLine ("MSG" ++ "\t" ++ "hi") = "MSG" ++ "\t" ++ "hi" :=
  ⟨keyword_separation_rules.1 [⟨"alice", []⟩] "alice" "  PiNg\r" (by decide) (by decide),
   keyword_separation_rules.2.1 "DM" "bob  hi" (by decide) (by decide) (by decide)
     (by decide) (by decide),
   keyword_separation_rules.2.2 "MSG" "hi" (by decide) (by decide) (by decide) (by decide)⟩

/-- Counterexample to C8 as stated: a tab between keyword and remainder is
a run of whitespace, but it does not separate them — `MSG<TAB>hi` keeps
the tab inside the single token, is not recognized as an MSG command, and
draws `ERR unknown-cmd`, while `MSG hi` (space-separated) broadcasts. -/
theorem tab_separator_cex :
    cleanLine "MSG\thi" = "MSG\thi" ∧
    dispatch [⟨"alice", []⟩, ⟨"bob", []⟩] "alice" "MSG\thi" =
      some ([⟨"alice", []⟩, ⟨"bob", []⟩], ["ERR unknown-cmd"]) ∧
    dispatch [⟨"alice", []⟩, ⟨"bob", []⟩] "alice" "MSG hi" =
      some ([⟨"alice", []⟩, ⟨"bob", ["MSG alice hi"]⟩], []) := by decide
